import Mathlib

/-!
Verification development for the glimpse-sdk randomized decision tree
trainer (`src/glimpse_rdt.cc`) and its companion inference kernel
(`src/infer_labels.cc`).

The C code is shallowly embedded: machine floats are modelled as exact
rationals (the claims under study are about control flow, bookkeeping and
accounting identities, not rounding), raster images become index functions,
and the in-place arrays become functional lists.  The worker gains, which
the C code derives from Shannon entropies, enter the selection loops as
explicit candidate values so that the retention and tie-breaking logic can
be studied on its own.  Every definition cites the lines of the source it
embeds; `sample_uv` and the property-registry bound check live outside the
two source files and are modelled from the specification, as marked.
-/

namespace Glimpse

/-- The `INT_MAX` sentinel from `<limits.h>` used by `glimpse_rdt.cc` to
mark a node slot as untrained (`tree[i].label_pr_idx = INT_MAX`,
glimpse_rdt.cc:1036). -/
def INT_MAX : Nat := 2 ^ 31 - 1

/-- C-style cast of a real value to `int`: truncation toward zero, written
on the reduced fraction (`num.tdiv den` truncates toward zero for either
sign of the numerator). -/
def ratTrunc (q : ℚ) : ℤ := q.num.tdiv (q.den : ℤ)

/-- A u,v offset pair: the four scalar offsets `(ux, uy, vx, vy)` of the
`UVPair` type used throughout `glimpse_rdt.cc`. -/
structure UVPair where
  ux : ℚ
  uy : ℚ
  vx : ℚ
  vy : ℚ
deriving DecidableEq

/-- A pixel sample: the `Int3D` triple of `glimpse_rdt.cc` — x and y
coordinates plus the training image index `i`. -/
structure Pix where
  x : Nat
  y : Nat
  i : Nat
deriving DecidableEq

/-- The slice of `struct gm_rdt_context_impl` the pixel routines read:
image geometry, label-space data and the two rasters.  `labelAt i off` is
`label_images[i*width*height + off]` and `depthAt i off` is
`depth_images[i*width*height + off]` (both rasters are row-major). -/
structure Ctx where
  width : Nat
  height : Nat
  nLabels : Nat
  bgLabel : Nat
  bgDepth : ℚ
  labelAt : Nat → Nat → Nat
  depthAt : Nat → Nat → ℚ

/-- Modelled from the spec: `sample_uv` is declared in `utils.h`, which is
not among the two source files; spec §4.3 describes it.  For pixel
`(px, py)` at depth `d` and offsets `uv`, compute
`U = (px + ux/d, py + uy/d)` and `V = (px + vx/d, py + vy/d)` truncating
each component toward zero; read the depth raster at `U` (respectively
`V`) when it falls inside the frame and use `bg_depth` otherwise; return
the gradient `depth(U) − depth(V)`. -/
def sample_uv (depthImage : Nat → ℚ) (width height : Nat) (bgDepth : ℚ)
    (px py : Nat) (d : ℚ) (uv : UVPair) : ℚ :=
  let ux := ratTrunc ((px : ℚ) + uv.ux / d)
  let uy := ratTrunc ((py : ℚ) + uv.uy / d)
  let vx := ratTrunc ((px : ℚ) + uv.vx / d)
  let vy := ratTrunc ((py : ℚ) + uv.vy / d)
  let du := if 0 ≤ ux ∧ ux < (width : ℤ) ∧ 0 ≤ uy ∧ uy < (height : ℤ)
    then depthImage (uy.toNat * width + ux.toNat) else bgDepth
  let dv := if 0 ≤ vx ∧ vx < (width : ℤ) ∧ 0 ≤ vy ∧ vy < (height : ℤ)
    then depthImage (vy.toNat * width + vx.toNat) else bgDepth
  du - dv

/-! ## Pixel sampler (glimpse_rdt.cc:128-207) -/

/-- The in-body scan of one label image
(`generate_randomized_sample_points`, glimpse_rdt.cc:154-168): the raster
offsets `y*width + x`, visited in row-major order, whose label differs
from `bg_label`.  `labels` is the raster of the image, listed in offset
order, so the scan is a filter over `0 .. labels.length`. -/
def inBodyPixels (labels : List Nat) (bgLabel : Nat) : List Nat :=
  (List.range labels.length).filter (fun off => labels.getD off 0 ≠ bgLabel)

/-- Ascending insertion used to model `std::sort` over the drawn sample
indices (glimpse_rdt.cc:189); the sort keys are plain ints, so any correct
ascending sort produces the same list. -/
def insertAsc (x : Nat) : List Nat → List Nat
  | [] => [x]
  | y :: ys => if x ≤ y then x :: y :: ys else y :: insertAsc x ys

/-- Ascending sort of the drawn sample indices (glimpse_rdt.cc:189). -/
def sortAsc (l : List Nat) : List Nat := l.foldr insertAsc []

/-- One image's slice of `generate_randomized_sample_points`
(glimpse_rdt.cc:144-203).  `draws` are the successive values of
`rand_0_1(rng)`, each in `[0,1)`.  The code computes
`off = (int)(rand_0_1(rng) * n_body_points)` (line 181), pushes these
values into `indices`, sorts them, and then — without ever indexing
`in_body_pixels` — reads `x = off % width`, `y = off / width` directly
from the sorted values (lines 191-202), emitting `(x, y, i)`. -/
def samplePointsForImage (width : Nat) (labels : List Nat) (bgLabel : Nat)
    (imageIdx : Nat) (draws : List ℚ) : List Pix :=
  let nBody := (inBodyPixels labels bgLabel).length
  let indices := sortAsc (draws.map (fun r => (ratTrunc (r * (nBody : ℚ))).toNat))
  indices.map (fun off => ⟨off % width, off / width, imageIdx⟩)

/-! ## Pixel partitioner (glimpse_rdt.cc:461-507) -/

/-- The gradient `collect_pixels` recomputes for a pixel
(glimpse_rdt.cc:476-484): read the pixel's own depth from its image, then
call `sample_uv` on it. -/
def pixelGradient (ctx : Ctx) (uv : UVPair) (p : Pix) : ℚ :=
  let depthImage := ctx.depthAt p.i
  let d := depthImage (p.y * ctx.width + p.x)
  sample_uv depthImage ctx.width ctx.height ctx.bgDepth p.x p.y d uv

/-- The routing loop of `collect_pixels` (glimpse_rdt.cc:474-494) from a
given pair of already-filled output lists: each pixel whose recomputed
gradient is `< t` is appended to the left output, every other pixel to the
right output. -/
def collectPixelsFrom (ctx : Ctx) (uv : UVPair) (t : ℚ)
    (pixels : List Pix) (acc : List Pix × List Pix) : List Pix × List Pix :=
  pixels.foldl (fun acc p =>
    if pixelGradient ctx uv p < t then (acc.1 ++ [p], acc.2)
    else (acc.1, acc.2 ++ [p])) acc

/-- `collect_pixels` (glimpse_rdt.cc:461-507): allocate the two output
lists, route every pixel of the node's list on its recomputed gradient,
then shrink the allocations to the actual counts `l_index`/`r_index`,
which are also written back through `n_lr_pixels` (lines 496-506) — the
reported counts are therefore the lengths of the two returned lists. -/
def collect_pixels (ctx : Ctx) (pixels : List Pix) (uv : UVPair) (t : ℚ) :
    List Pix × List Pix :=
  collectPixelsFrom ctx uv t pixels ([], [])

/-! ## Histograms (glimpse_rdt.cc:230-272, 283-342) -/

/-- The root-histogram accumulation of `accumulate_uvt_lr_histograms`
(glimpse_rdt.cc:290-308): starting from `n_labels` zeroed bins, increment
the bin of each sampled pixel's label. -/
def rootHistogram (ctx : Ctx) (pixels : List Pix) : List Nat :=
  pixels.foldl (fun h p =>
    let label := ctx.labelAt p.i (p.y * ctx.width + p.x)
    h.set label (h.getD label 0 + 1)) (List.replicate ctx.nLabels 0)

/-- `normalize_histogram` (glimpse_rdt.cc:230-257): returns
`((sums[0], sums[1]), normalized)` where `sums[0]` is the total count
(summing only the nonzero bins equals summing all bins), `sums[1]` the
number of labels present, and `normalized` divides each bin by the total,
or is all zeros when the histogram is empty. -/
def normalize_histogram (hist : List Nat) : (Nat × Nat) × List ℚ :=
  let total := hist.foldl (· + ·) (0 : Nat)
  let present := (hist.filter (fun c => 0 < c)).length
  let normalized :=
    if 0 < total then hist.map (fun c => (c : ℚ) / (total : ℚ))
    else hist.map (fun _ => (0 : ℚ))
  ((total, present), normalized)

/-! ## Final serialization (glimpse_rdt.cc:686-795, 1199-1234) -/

/-- A packed tree node as used by `glimpse_rdt.cc`: `label_pr_idx` is 0
for an interior node, a 1-based probability-table index for a leaf, and
`INT_MAX` for an untrained slot; `uv` and `t` are the split parameters of
interior nodes. -/
structure RNode where
  label_pr_idx : Nat
  uv : UVPair
  t : ℚ
deriving DecidableEq

/-- The all-zero node produced by `xcalloc` (glimpse_rdt.cc:902). -/
def RNode.zero : RNode := ⟨0, ⟨0, 0, 0, 0⟩, 0⟩

/-- The `RDTree` slice that `save_tree_json` reads (glimpse_rdt.cc:757):
header depth and label count, the packed breadth-first node array, and the
probability tables listed in `label_pr_tables` order (one `n_labels`-float
table per 1-based `label_pr_idx`). -/
structure RDTreeM where
  depth : Nat
  n_labels : Nat
  nodes : List RNode
  tables : List (List ℚ)

/-- The probability-table reads performed by `recursive_build_tree`
(glimpse_rdt.cc:686-751) on the subtree at `id`, listed in visit order as
0-based table indices: a node with `label_pr_idx = 0` serializes `t`, `u`,
`v` and recurses into `2*id+1` and `2*id+2` while
`depth < header.depth - 1`; any other node is serialized as a leaf,
reading the table at `label_pr_idx - 1` (lines 736-747).  The fuel starts
at `header.depth` and stays ahead of the recursion depth, so the `0` case
is never the one the C code's own stopping rule would not also reach. -/
def buildTreeReadsAux (tree : RDTreeM) : Nat → Nat → Nat → List Nat
  | 0, _, _ => []
  | fuel + 1, depth, id =>
    let node := tree.nodes.getD id RNode.zero
    if node.label_pr_idx = 0 then
      if depth < tree.depth - 1 then
        buildTreeReadsAux tree fuel (depth + 1) (2 * id + 1) ++
          buildTreeReadsAux tree fuel (depth + 1) (2 * id + 2)
      else []
    else [node.label_pr_idx - 1]

/-- All probability-table reads of a `save_tree_json` call, which starts
`recursive_build_tree` at the root (glimpse_rdt.cc:780). -/
def buildTreeReads (tree : RDTreeM) : List Nat :=
  buildTreeReadsAux tree tree.depth 0 0

/-- Status of the external JSON serializer
(`json_serialize_to_file[_pretty]`, glimpse_rdt.cc:784-786); persistence
is an external collaborator, so only its status is modelled. -/
inductive JSONStatus where
  | success
  | failure
deriving DecidableEq

/-- Result of `save_tree_json` (glimpse_rdt.cc:757-795): the JSON tree is
built, handed to the serializer, and the function returns `false` after
reporting when the serializer's status is not `JSONSuccess`, `true`
otherwise (lines 784-794). -/
def save_tree_json (status : JSONStatus) : Bool :=
  match status with
  | JSONStatus.success => true
  | JSONStatus.failure => false

/-- Tail of `gm_rdt_context_train` (glimpse_rdt.cc:1199-1234): the header
and `RDTree` are assembled, the histogram list is flattened into
`label_pr_tables`, `save_tree_json(&rdtree, out_filename, true)` is
invoked with its result discarded (line 1216), the scratch is freed, and
the function returns `true` unconditionally (line 1234).  Returns the
flattened table list together with the function's boolean result. -/
def trainEpilogue (histograms : List (List ℚ)) (status : JSONStatus) :
    List (List ℚ) × Bool :=
  let label_pr_tables := histograms
  let _saved := save_tree_json status
  (label_pr_tables, true)

/-! ## Configuration bounds (glimpse_rdt.cc:585-594, 852-856) -/

/-- Minimum accepted by the `n_thresholds` property registered in
`gm_rdt_context_new` (glimpse_rdt.cc:592: `prop.int_state.min = 1`). -/
def nThresholdsMin : ℤ := 1

/-- Maximum accepted by the `n_thresholds` property
(glimpse_rdt.cc:593: `prop.int_state.max = INT_MAX`). -/
def nThresholdsMax : ℤ := 2 ^ 31 - 1

/-- Modelled from the spec: the property registry
(`glimpse_properties`, not among the two source files) is the
configuration bag; it enforces exactly the registered min/max bounds of an
int property when a value is configured. -/
def nThresholdsAccepted (v : ℤ) : Bool :=
  decide (nThresholdsMin ≤ v ∧ v ≤ nThresholdsMax)

/-- Divisor of the candidate-threshold spacing formula
(glimpse_rdt.cc:855: `i * threshold_range / (float)(n_thresholds - 1)`). -/
def thresholdDivisor (nThresholds : Nat) : ℚ := (nThresholds : ℚ) - 1

/-- Candidate threshold generation (glimpse_rdt.cc:852-856):
`thresholds[i] = -threshold_range/2 + i*threshold_range/(n_thresholds-1)`,
with the float arithmetic modelled exactly over ℚ. -/
def genThresholds (nThresholds : Nat) (range : ℚ) : List ℚ :=
  (List.range nThresholds).map (fun i =>
    -range / 2 + ((i : ℚ) * range) / thresholdDivisor nThresholds)

/-! ## Split selection (glimpse_rdt.cc:344-459, 1081-1091) -/

/-- An incumbent of the selection loops: the best gain so far and the
index that achieved it (`none` before any update — `best_uv` and
`best_threshold` are written only when a strictly greater gain is
found). -/
structure SelAcc (ι : Type) where
  gain : ℚ
  idx : Option ι
deriving DecidableEq

/-- One comparison of the selection loops: a candidate (`none` when the
loop `continue`d without computing a gain) replaces the incumbent only on
a strictly greater gain (`gain > *data->best_gain`, glimpse_rdt.cc:433;
`best_gains[i] > best_gain`, glimpse_rdt.cc:1084). -/
def selStep {ι : Type} (acc : SelAcc ι) (cand : ι × Option ℚ) : SelAcc ι :=
  match cand.2 with
  | none => acc
  | some g => if acc.gain < g then ⟨g, some cand.1⟩ else acc

/-- Selection over a candidate list in iteration order. -/
def selectLoop {ι : Type} (cands : List (ι × Option ℚ)) (acc : SelAcc ι) :
    SelAcc ι :=
  cands.foldl selStep acc

/-- The candidate sequence one worker scans (thread_body,
glimpse_rdt.cc:404-442): uv index `c` in the outer loop, threshold index
`t` in the inner loop.  `gains` lists, per uv index of the worker's slice
and per threshold, either `none` — a candidate skipped by the `continue`
for an empty or root-equal left branch (lines 415-418) — or the
information gain computed for the pair. -/
def workerCands (gains : List (List (Option ℚ))) :
    List ((Nat × Nat) × Option ℚ) :=
  (gains.enum).flatMap (fun cr =>
    (cr.2.enum).map (fun tg => ((cr.1, tg.1), tg.2)))

/-- The selection loop of `thread_body` (glimpse_rdt.cc:392-443):
`*best_gain` starts at 0 with no published index, and the candidates are
scanned in `workerCands` order. -/
def workerSelect (gains : List (List (Option ℚ))) : SelAcc (Nat × Nat) :=
  selectLoop (workerCands gains) ⟨0, none⟩

/-- The candidate sequence of the driver's cross-worker reduction
(glimpse_rdt.cc:1081-1091): the per-worker best gains, scanned in
ascending worker id; every slot yields a candidate. -/
def driverCands (workerGains : List ℚ) : List (Nat × Option ℚ) :=
  workerGains.enum.map (fun ig => (ig.1, some ig.2))

/-- The driver's cross-worker reduction (glimpse_rdt.cc:1081-1091):
`best_gain` starts at 0 and the per-worker result slots are scanned in
ascending worker id, replacing the incumbent only on a strictly greater
gain. -/
def driverReduce (workerGains : List ℚ) : SelAcc Nat :=
  selectLoop (driverCands workerGains) ⟨0, none⟩

/-- All candidates of one node in the global scan order: ascending worker
slice id, then each worker's own order (uv index outer, threshold index
inner). -/
def globalCands (workers : List (List (List (Option ℚ)))) :
    List ((Nat × Nat × Nat) × Option ℚ) :=
  workers.enum.flatMap (fun wp =>
    (workerCands wp.2).map (fun ctg => ((wp.1, ctg.1.1, ctg.1.2), ctg.2)))

/-- One driver comparison against worker `i`'s published result slot
(glimpse_rdt.cc:1084-1090): on a strictly greater gain the driver takes
that gain together with the worker's published
`(best_uv, best_threshold)` pair. -/
def driverStep (acc : SelAcc (Nat × Nat × Nat)) (iw : Nat × SelAcc (Nat × Nat)) :
    SelAcc (Nat × Nat × Nat) :=
  if acc.gain < iw.2.gain then
    ⟨iw.2.gain, iw.2.idx.map (fun ct => (iw.1, ct.1, ct.2))⟩
  else acc

/-- Composition of `workerSelect` and the driver reduction: the driver
scans the per-worker best gains in ascending worker id and, when worker
`i` wins, retains its published `(best_uv, best_threshold)` pair
(glimpse_rdt.cc:1084-1090). -/
def globalSelect (workers : List (List (List (Option ℚ)))) :
    SelAcc (Nat × Nat × Nat) :=
  (workers.enum.map (fun wp => (wp.1, workerSelect wp.2))).foldl
    driverStep ⟨0, none⟩

/-- Strict lexicographic order on (uv index, threshold index) pairs: the
scan order of one worker's candidate loop. -/
def lexLt (a b : Nat × Nat) : Prop :=
  a.1 < b.1 ∨ (a.1 = b.1 ∧ a.2 < b.2)

/-- Strict lexicographic order on (worker, uv index, threshold index)
triples: the global scan order. -/
def lex3Lt (a b : Nat × Nat × Nat) : Prop :=
  a.1 < b.1 ∨ (a.1 = b.1 ∧ lexLt a.2 b.2)

/-! ## Trainer driver (glimpse_rdt.cc:797-1160) -/

/-- A node training record (`NodeTrainData`, glimpse_rdt.cc:103-108):
breadth-first node id, depth, and the pixel list that reached the node. -/
structure NodeRec where
  id : Nat
  depth : Nat
  pixels : List Pix
deriving DecidableEq

/-- The split the driver retains after the cross-worker reduction, with
the uv pair and threshold already resolved through `ctx->uvs[best_uv]`
and `ctx->thresholds[best_threshold]` (glimpse_rdt.cc:1098-1099). -/
structure BestSplit where
  gain : ℚ
  uv : UVPair
  t : ℚ

/-- Mutable state of the driver loop: the packed node array, the FIFO
node queue, the probability-table list `tree_histograms` in insertion
order (the C code keeps a pointer to the list's tail and flattens from
`llist_first`, glimpse_rdt.cc:1186), and the `n_histograms` counter. -/
structure TrainState where
  tree : List RNode
  queue : List NodeRec
  histograms : List (List ℚ)
  nHistograms : Nat

/-- Fresh-start node array (glimpse_rdt.cc:900-902 and 1032-1038): the
`2^max_depth − 1` slots are zero-allocated and every `label_pr_idx` is
then set to the `INT_MAX` untrained sentinel. -/
def freshTree (maxDepth : Nat) : List RNode :=
  List.replicate (2 ^ maxDepth - 1) { RNode.zero with label_pr_idx := INT_MAX }

/-- Fresh-start initial state (glimpse_rdt.cc:900-919): the sentinel-
filled node array and the root record carrying the full sample list. -/
def freshState (maxDepth : Nat) (rootPixels : List Pix) : TrainState :=
  { tree := freshTree maxDepth,
    queue := [⟨0, 0, rootPixels⟩],
    histograms := [],
    nHistograms := 0 }

/-- One node expansion of the training loop (glimpse_rdt.cc:1045-1160),
with the reduced best split supplied by the oracle `best` — the numeric
gain search is studied separately through `workerSelect` and
`driverReduce`.  If the gain is strictly positive and the child depth is
still below `max_depth` (line 1096), the node is written as interior
(split parameters stored, `label_pr_idx = 0`), its pixels are partitioned
by `collect_pixels`, and the two children `(2·id+1, depth+1)` then
`(2·id+2, depth+1)` are appended at the queue's tail; otherwise the node
becomes a leaf: `label_pr_idx` receives the pre-incremented
`n_histograms` (line 1147) and the leaf's table — worker 0's
`root_nhistogram`, the normalized root histogram of the node's pixels —
is appended to the histogram list. -/
def trainStep (ctx : Ctx) (maxDepth : Nat) (best : NodeRec → BestSplit)
    (st : TrainState) : TrainState :=
  match st.queue with
  | [] => st
  | nd :: rest =>
    let b := best nd
    if 0 < b.gain ∧ nd.depth + 1 < maxDepth then
      let lr := collect_pixels ctx nd.pixels b.uv b.t
      { tree := st.tree.set nd.id { label_pr_idx := 0, uv := b.uv, t := b.t },
        queue := rest ++
          [⟨2 * nd.id + 1, nd.depth + 1, lr.1⟩,
           ⟨2 * nd.id + 2, nd.depth + 1, lr.2⟩],
        histograms := st.histograms,
        nHistograms := st.nHistograms }
    else
      { tree := st.tree.set nd.id
          { st.tree.getD nd.id RNode.zero with
              label_pr_idx := st.nHistograms + 1 },
        queue := rest,
        histograms := st.histograms ++
          [(normalize_histogram (rootHistogram ctx nd.pixels)).2],
        nHistograms := st.nHistograms + 1 }

/-- Runs of the training loop: `trainRun k` performs `k` node expansions.
An interrupt delivered after `k` expansions (the check at
glimpse_rdt.cc:1076-1079 fires before the popped node is written) leaves
exactly this state, and any `k` at least the total number of expansions
gives the uninterrupted run to queue exhaustion. -/
def trainRun (ctx : Ctx) (maxDepth : Nat) (best : NodeRec → BestSplit) :
    Nat → TrainState → TrainState
  | 0, st => st
  | k + 1, st => trainRun ctx maxDepth best k (trainStep ctx maxDepth best st)

/-! ## Checkpoint restore (glimpse_rdt.cc:920-1038) -/

/-- The checkpoint tree read back by `read_tree` (glimpse_rdt.cc:925):
stored depth, stored node array and stored probability tables. -/
structure Checkpoint where
  depth : Nat
  nodes : List RNode
  tables : List (List ℚ)

/-- Node array initialization on the reload path (glimpse_rdt.cc:900-902
and 952-954): `xcalloc` zeroes all `2^max_depth − 1` slots, then `memcpy`
copies the checkpoint's `2^stored_depth − 1` node slots; the `else`
branch that writes the untrained sentinel (lines 1032-1038) is not taken
on this path, so every slot past the copied prefix keeps the all-zero
node. -/
def reloadTree (maxDepth : Nat) (ckpt : Checkpoint) : List RNode :=
  ckpt.nodes.take (2 ^ ckpt.depth - 1) ++
    List.replicate ((2 ^ maxDepth - 1) - (2 ^ ckpt.depth - 1)) RNode.zero

/-- State of the checkpoint walk (glimpse_rdt.cc:956-1022): the walking
queue (seeded with the root record of the initial training queue, line
958), the training queue being rebuilt, and the histogram list and
counter. -/
structure WalkState where
  ckptQueue : List NodeRec
  trainQueue : List NodeRec
  histograms : List (List ℚ)
  nHistograms : Nat

/-- The walk's training-queue insertion (glimpse_rdt.cc:989-991):
`llist_insert_after(train_queue, llist_new(data))` inserts directly after
the head when the queue is nonempty (the code does not seek the tail
here), so every insertion after the first lands right behind the head. -/
def walkEnqueue (q : List NodeRec) (nd : NodeRec) : List NodeRec :=
  match q with
  | [] => [nd]
  | h :: t => h :: nd :: t

/-- One iteration of the checkpoint walk (glimpse_rdt.cc:960-1022) over
the restored node array `tree`: pop the head record and look up its node;
if the node carries a valid table index (nonzero and not the untrained
sentinel), append a copy of checkpoint table `label_pr_idx − 1` to the
histogram list and bump the counter (lines 970-979); then, if the node is
untrained, or sits on the stored last depth while training deeper, move
the record to the training queue (lines 981-993); otherwise, if the node
is interior, partition its pixels with the stored split and push the two
children at the walking queue's tail (lines 995-1018); otherwise drop the
record. -/
def walkStep (ctx : Ctx) (maxDepth : Nat) (ckpt : Checkpoint)
    (tree : List RNode) (ws : WalkState) : WalkState :=
  match ws.ckptQueue with
  | [] => ws
  | nd :: rest =>
    let node := tree.getD nd.id RNode.zero
    let ws1 :=
      if node.label_pr_idx ≠ 0 ∧ node.label_pr_idx ≠ INT_MAX then
        { ws with
          histograms := ws.histograms ++
            [ckpt.tables.getD (node.label_pr_idx - 1) []],
          nHistograms := ws.nHistograms + 1 }
      else ws
    if node.label_pr_idx = INT_MAX ∨
        (nd.depth = ckpt.depth - 1 ∧ ckpt.depth < maxDepth) then
      { ckptQueue := rest,
        trainQueue := walkEnqueue ws1.trainQueue nd,
        histograms := ws1.histograms,
        nHistograms := ws1.nHistograms }
    else if node.label_pr_idx = 0 then
      let lr := collect_pixels ctx nd.pixels node.uv node.t
      { ckptQueue := rest ++
          [⟨2 * nd.id + 1, nd.depth + 1, lr.1⟩,
           ⟨2 * nd.id + 2, nd.depth + 1, lr.2⟩],
        trainQueue := ws1.trainQueue,
        histograms := ws1.histograms,
        nHistograms := ws1.nHistograms }
    else
      { ws1 with ckptQueue := rest }

/-- Runs of the checkpoint walk, `k` iterations at a time; any `k` at
least the number of visited records drains the walking queue. -/
def walkRun (ctx : Ctx) (maxDepth : Nat) (ckpt : Checkpoint)
    (tree : List RNode) : Nat → WalkState → WalkState
  | 0, ws => ws
  | k + 1, ws => walkRun ctx maxDepth ckpt tree k (walkStep ctx maxDepth ckpt tree ws)

/-- The full reload-and-resume path (glimpse_rdt.cc:920-1038 followed by
the training loop): restore the node array, walk the stored tree from the
root record carrying the full sample list, then run the training loop on
the rebuilt queue. -/
def resumeRun (ctx : Ctx) (maxDepth : Nat) (ckpt : Checkpoint)
    (rootPixels : List Pix) (best : NodeRec → BestSplit)
    (fuelWalk fuelTrain : Nat) : TrainState :=
  let tree := reloadTree maxDepth ckpt
  let ws := walkRun ctx maxDepth ckpt tree fuelWalk
    ⟨[⟨0, 0, rootPixels⟩], [], [], 0⟩
  trainRun ctx maxDepth best fuelTrain
    ⟨tree, ws.trainQueue, ws.histograms, ws.nHistograms⟩

/-- Number of leaf slots of a packed node array: slots holding a 1-based
table index (neither the interior marker 0 nor the untrained
sentinel). -/
def leafCount (tree : List RNode) : Nat :=
  (tree.filter (fun n => n.label_pr_idx ≠ 0 ∧ n.label_pr_idx ≠ INT_MAX)).length

/-! ## Inference kernel (infer_labels.cc:58-164) -/

/-- Depth gradient of the inference walk (infer_labels.cc:99-119): the u
and v probes are offset from the pixel by `uv/depth` — the x components
negated on the flipped pass — truncated toward zero by the int casts, and
clamped to the frame with `bg_depth` as the out-of-frame reading. -/
def inferGradient (depthImage : Nat → ℚ) (width height : Nat)
    (bgDepth : ℚ) (px py : Nat) (d : ℚ) (node : RNode) (flip : Bool) : ℚ :=
  let ux := ratTrunc (if flip then (px : ℚ) - node.uv.ux / d
    else (px : ℚ) + node.uv.ux / d)
  let uy := ratTrunc ((py : ℚ) + node.uv.uy / d)
  let vx := ratTrunc (if flip then (px : ℚ) - node.uv.vx / d
    else (px : ℚ) + node.uv.vx / d)
  let vy := ratTrunc ((py : ℚ) + node.uv.vy / d)
  let du := if 0 ≤ ux ∧ ux < (width : ℤ) ∧ 0 ≤ uy ∧ uy < (height : ℤ)
    then depthImage (uy.toNat * width + ux.toNat) else bgDepth
  let dv := if 0 ≤ vx ∧ vx < (width : ℤ) ∧ 0 ≤ vy ∧ vy < (height : ℤ)
    then depthImage (vy.toNat * width + vx.toNat) else bgDepth
  du - dv

/-- The per-tree descent (infer_labels.cc:94-131): starting at the root,
while the node is interior descend to `2*id+1` when the gradient is
`< t`, else to `2*id+2`; returns the leaf node reached, or `none` when
the walk is still at an interior node after `fuel` steps (a well-formed
packed tree of depth D reaches a leaf within D steps, and the walks are
run with `fuel = D`). -/
def inferLeaf (tree : RDTreeM) (depthImage : Nat → ℚ) (width height : Nat)
    (bgDepth : ℚ) (px py : Nat) (d : ℚ) (flip : Bool) :
    Nat → Nat → Option RNode
  | 0, id =>
    let n := tree.nodes.getD id RNode.zero
    if n.label_pr_idx = 0 then none else some n
  | fuel + 1, id =>
    let n := tree.nodes.getD id RNode.zero
    if n.label_pr_idx = 0 then
      inferLeaf tree depthImage width height bgDepth px py d flip fuel
        (if inferGradient depthImage width height bgDepth px py d n flip < n.t
         then 2 * id + 1 else 2 * id + 2)
    else some n

/-- Accumulation of `x` into slot `i` of the pixel's output
(`out_pr_table[...] += ...`, infer_labels.cc:139-147). -/
def addAt (out : List ℚ) (i : Nat) (x : ℚ) : List ℚ :=
  out.set i (out.getD i 0 + x)

/-- Accumulate one leaf table into the pixel's output slot
(infer_labels.cc:136-147): slot `n` receives `pr_table[n]` on the plain
pass, and slot `flip_map[n]` receives it on the flipped pass. -/
def accumTable (flipMap : Option (List Nat)) (flip : Bool)
    (out table : List ℚ) : List ℚ :=
  table.enum.foldl (fun o nv =>
    match flipMap, flip with
    | some fm, true => addAt o (fm.getD nv.1 0) nv.2
    | _, _ => addAt o nv.1 nv.2) out

/-- One tree/flip pass of the accumulation loop (infer_labels.cc:89-148):
walk to the leaf and accumulate its 1-based table.  A walk that fails to
reach a leaf, or a leaf whose table index falls outside the tree's table
list, is a malformed forest — the C code would read out of bounds — and
yields `none`. -/
def accumOne (flipMap : Option (List Nat)) (depthImage : Nat → ℚ)
    (width height : Nat) (bgDepth : ℚ) (px py : Nat) (d : ℚ)
    (out : List ℚ) (tree : RDTreeM) (flip : Bool) : Option (List ℚ) :=
  match inferLeaf tree depthImage width height bgDepth px py d flip tree.depth 0 with
  | none => none
  | some leaf =>
    if leaf.label_pr_idx - 1 < tree.tables.length then
      some (accumTable flipMap flip out
        (tree.tables.getD (leaf.label_pr_idx - 1) []))
    else none

/-- The flip passes per tree (infer_labels.cc:93): both passes when a
flip map is supplied, otherwise only the unflipped one. -/
def flipPasses (flipMap : Option (List Nat)) : List Bool :=
  match flipMap with
  | some _ => [false, true]
  | none => [false]

/-- Per-pixel body of `infer_label_probs_cb` (infer_labels.cc:80-156) for
pixel `(px, py)` of the depth frame: a background pixel (depth ≥
`bg_depth`) gets 1 added at `bg_label` of its zeroed output slot and is
not divided (lines 83-86); otherwise every tree of the forest is walked
once per flip pass, the leaf tables are accumulated, and the accumulator
is divided by trees × passes (lines 151-155).  `n_labels`, `bg_depth` and
`bg_label` are read once from the first tree's header
(infer_labels.cc:64-67) and appear here as parameters. -/
def inferPixel (forest : List RDTreeM) (nLabels : Nat) (bgDepth : ℚ)
    (bgLabel : Nat) (flipMap : Option (List Nat)) (depthImage : Nat → ℚ)
    (width height px py : Nat) : Option (List ℚ) :=
  let d := depthImage (py * width + px)
  if bgDepth ≤ d then
    some (addAt (List.replicate nLabels 0) bgLabel 1)
  else
    let passes := forest.flatMap (fun tr =>
      (flipPasses flipMap).map (fun fl => (tr, fl)))
    let acc := passes.foldl (fun acc trfl =>
      match acc with
      | none => none
      | some o =>
        accumOne flipMap depthImage width height bgDepth px py d o trfl.1 trfl.2)
      (some (List.replicate nLabels 0))
    match acc with
    | none => none
    | some o =>
      let divider : ℚ := ((forest.length * (flipPasses flipMap).length : Nat) : ℚ)
      some (o.map (fun v => v / divider))

/-! ## Concrete scenario instances -/

/-- A 2×1 single-image corpus: raster labels [0, 1] with background
label 0, all depths 1, two labels, background depth 8. -/
def ctxTwoPixel : Ctx :=
  ⟨2, 1, 2, 0, 8, fun _ off => off % 2, fun _ _ => 1⟩

/-- The two sample pixels of the 2×1 image. -/
def pixelsTwo : List Pix := [⟨0, 0, 0⟩, ⟨1, 0, 0⟩]

/-- A reduction oracle reporting a positive best gain with the zero uv
pair and threshold 0 for every node. -/
def bestAlwaysSplit : NodeRec → BestSplit := fun _ => ⟨1, ⟨0, 0, 0, 0⟩, 0⟩

/-- A reduction oracle reporting best gain 0 for every node, so every
node becomes a leaf. -/
def bestNeverSplit : NodeRec → BestSplit := fun _ => ⟨0, ⟨0, 0, 0, 0⟩, 0⟩

/-- The state of a max_depth = 2 fresh training run interrupted by SIGINT
right after its first node expansion (the root was written as interior
and its children were enqueued but never trained). -/
def interruptedState : TrainState :=
  trainRun ctxTwoPixel 2 bestAlwaysSplit 1 (freshState 2 pixelsTwo)

/-- The `RDTree` handed to `save_tree_json` after the interrupted run
(glimpse_rdt.cc:1199-1216): the header depth is `ctx->max_depth`, the
node array and flattened histogram list come from the interrupted
state. -/
def interruptedTree : RDTreeM :=
  ⟨2, 2, interruptedState.tree, interruptedState.histograms⟩

/-- A 1×1 single-image corpus with a single label and background
depth 8. -/
def ctxOnePixel : Ctx := ⟨1, 1, 1, 0, 8, fun _ _ => 0, fun _ _ => 1⟩

/-- The single sample pixel of the 1×1 image. -/
def pixelOne : List Pix := [⟨0, 0, 0⟩]

/-- A stored depth-1 checkpoint: its fully trained tree is a single leaf
carrying table index 1, and it stores the one probability table [1]. -/
def ckptDepthOne : Checkpoint := ⟨1, [⟨1, ⟨0, 0, 0, 0⟩, 0⟩], [[1]]⟩

/-- The deeper resume of `ckptDepthOne` at max_depth = 2: the walk
appends the stored leaf's table and re-enqueues the root (a stored-depth
leaf under a deeper max_depth), and the resumed training then finds no
positive gain, so the root becomes a fresh leaf with a new table. -/
def resumedState : TrainState :=
  resumeRun ctxOnePixel 2 ckptDepthOne pixelOne bestNeverSplit 1 1

/-! ## Partition lemmas -/

/-- The routing loop appends the gradient-below-threshold pixels to the
left accumulator and the rest to the right accumulator, in order. -/
theorem collectPixelsFrom_spec (ctx : Ctx) (uv : UVPair) (t : ℚ)
    (pixels : List Pix) (l r : List Pix) :
    collectPixelsFrom ctx uv t pixels (l, r) =
      (l ++ pixels.filter (fun p => pixelGradient ctx uv p < t),
       r ++ pixels.filter (fun p => ¬ pixelGradient ctx uv p < t)) := by
  induction pixels generalizing l r with
  | nil => simp [collectPixelsFrom]
  | cons p ps ih =>
    simp only [collectPixelsFrom, List.foldl_cons] at ih ⊢
    by_cases h : pixelGradient ctx uv p < t
    · simp only [if_pos h]
      rw [ih]
      simp [List.filter_cons, h]
    · simp only [if_neg h]
      rw [ih]
      simp [List.filter_cons, h, not_lt.1 h]

/-- C6: for every node pixel list and chosen split, `collect_pixels`
produces a left list of exactly the pixels whose recomputed gradient is
below the threshold and a right list of the others, both in original
relative order, and the reported counts (the shrunk allocation sizes)
add up to the input length. -/
theorem c6_collect_pixels_partition (ctx : Ctx) (pixels : List Pix)
    (uv : UVPair) (t : ℚ) :
    (collect_pixels ctx pixels uv t).1 =
      pixels.filter (fun p => pixelGradient ctx uv p < t) ∧
    (collect_pixels ctx pixels uv t).2 =
      pixels.filter (fun p => ¬ pixelGradient ctx uv p < t) ∧
    (collect_pixels ctx pixels uv t).1.length +
      (collect_pixels ctx pixels uv t).2.length = pixels.length := by
  have h := collectPixelsFrom_spec ctx uv t pixels [] []
  simp only [List.nil_append] at h
  refine ⟨by rw [collect_pixels, h], by rw [collect_pixels, h], ?_⟩
  rw [collect_pixels, h]
  conv_rhs => rw [pixels.length_eq_length_filter_add
    (fun p => decide (pixelGradient ctx uv p < t))]
  simp only [decide_not]

/-! ## C1: the sampler does not stay inside the body -/

/-- C1: the claim says every sample triple emitted by the pixel sampler
lies on an in-body pixel (label ≠ BG) of its image.  The code collects
`in_body_pixels` but then reads `x = off % width`, `y = off / width`
directly from the drawn index `off` without ever indexing the collected
list (glimpse_rdt.cc:180-194, contradicting the function's own
"pick N random points within the silhoette" comment): on a 2×1 image with
raster labels [BG, body] (bg_label = 0, n_labels = 2), the in-body list
is [1], a draw of 0.5 yields sample index 0, and the emitted pixel is
(0, 0) — whose raster label is the background label. -/
theorem c1_sampler_emits_background_pixel :
    samplePointsForImage 2 [0, 1] 0 0 [1/2] = [⟨0, 0, 0⟩] ∧
    [0, 1].getD (0 * 2 + 0) 0 = 0 := by
  constructor
  · norm_num [samplePointsForImage, inBodyPixels, sortAsc, insertAsc,
      ratTrunc, List.range_succ]
    decide
  · decide

/-! ## C3: initial sentinel fill -/

/-- C3 counterexample: resuming a stored depth-1 checkpoint (a single
leaf node with table index 1) at max_depth = 2 leaves slot 1 — the first
slot past the copied 2^1 − 1 = 1 prefix — holding the all-zero node, so
its `label_pr_idx` is 0 and not the untrained sentinel. -/
theorem c3_reload_tail_not_sentinel :
    ¬ (((reloadTree 2 ⟨1, [⟨1, ⟨0, 0, 0, 0⟩, 0⟩], [[1]]⟩).getD 1
        RNode.zero).label_pr_idx = INT_MAX) := by
  intro h
  norm_num [reloadTree, RNode.zero, INT_MAX] at h

/-- C3 amended: before the training loop every slot of the fresh-start
node array holds the untrained sentinel, but on the checkpoint-reload
path only the copied prefix carries the stored values — every slot past
the first 2^stored_depth − 1 slots holds the all-zero node (whose
`label_pr_idx` is 0, the interior marker), not the untrained sentinel. -/
theorem c3_initial_sentinels (maxDepth : Nat) (ckpt : Checkpoint) (i : Nat)
    (hbound : i < 2 ^ maxDepth - 1) :
    ((freshTree maxDepth).getD i RNode.zero).label_pr_idx = INT_MAX ∧
    (2 ^ ckpt.depth - 1 ≤ i → ckpt.nodes.length = 2 ^ ckpt.depth - 1 →
      (reloadTree maxDepth ckpt).getD i RNode.zero = RNode.zero) := by
  constructor
  · rw [freshTree, List.getD_eq_getElem?_getD, List.getElem?_replicate,
      if_pos hbound]
    rfl
  · intro hge hlen
    rw [reloadTree, List.getD_eq_getElem?_getD]
    have htake : (ckpt.nodes.take (2 ^ ckpt.depth - 1)).length =
        2 ^ ckpt.depth - 1 := by
      rw [List.length_take, hlen]
      omega
    rw [List.getElem?_append_right (by omega), htake,
      List.getElem?_replicate, if_pos (by omega)]
    rfl

/-- Witness for the hypotheses of `c3_initial_sentinels`, at
max_depth = 2, a stored depth-1 checkpoint, and slot 1. -/
theorem c3_initial_sentinels_witness :
    ((freshTree 2).getD 1 RNode.zero).label_pr_idx = INT_MAX ∧
    (reloadTree 2 ⟨1, [⟨2, ⟨0, 0, 0, 0⟩, 0⟩], []⟩).getD 1 RNode.zero =
      RNode.zero := by
  have h := c3_initial_sentinels 2 ⟨1, [⟨2, ⟨0, 0, 0, 0⟩, 0⟩], []⟩ 1
    (by decide)
  exact ⟨h.1, h.2 (by decide) (by decide)⟩

/-! ## Selection-loop lemmas -/

/-- A skipped candidate leaves the incumbent untouched. -/
theorem selStep_none {ι : Type} (acc : SelAcc ι) (j : ι) :
    selStep acc (j, none) = acc := rfl

/-- A computed candidate replaces the incumbent only on strictly greater
gain. -/
theorem selStep_some {ι : Type} (acc : SelAcc ι) (j : ι) (g : ℚ) :
    selStep acc (j, some g) = if acc.gain < g then ⟨g, some j⟩ else acc := rfl

/-- One comparison never lowers the incumbent gain. -/
theorem selStep_gain_le {ι : Type} (acc : SelAcc ι) (cand : ι × Option ℚ) :
    acc.gain ≤ (selStep acc cand).gain := by
  rcases cand with ⟨j, g⟩
  cases g with
  | none => exact le_refl _
  | some gv =>
    rw [selStep_some]
    split_ifs with h
    · exact le_of_lt h
    · exact le_refl _

/-- The scan never lowers the incumbent gain. -/
theorem selectLoop_gain_le {ι : Type} (cands : List (ι × Option ℚ))
    (acc : SelAcc ι) : acc.gain ≤ (selectLoop cands acc).gain := by
  induction cands generalizing acc with
  | nil => exact le_refl _
  | cons c cs ih =>
    rw [selectLoop, List.foldl_cons]
    exact le_trans (selStep_gain_le acc c) (ih (selStep acc c))

/-- Every computed candidate gain is at most the final gain. -/
theorem selectLoop_ub {ι : Type} (cands : List (ι × Option ℚ))
    (acc : SelAcc ι) (p : ι × Option ℚ) (hp : p ∈ cands) (g : ℚ)
    (hg : p.2 = some g) : g ≤ (selectLoop cands acc).gain := by
  induction cands generalizing acc with
  | nil => cases hp
  | cons c cs ih =>
    rw [selectLoop, List.foldl_cons]
    rcases List.mem_cons.mp hp with rfl | hp
    · have h1 : g ≤ (selStep acc p).gain := by
        rcases p with ⟨j, gg⟩
        cases hg
        rw [selStep_some]
        split_ifs with h
        · exact le_refl _
        · exact not_lt.mp h
      exact le_trans h1 (selectLoop_gain_le cs (selStep acc p))
    · exact ih (selStep acc c) hp

/-- When no candidate exceeds the incumbent gain, the incumbent
survives. -/
theorem selectLoop_keep {ι : Type} (cands : List (ι × Option ℚ))
    (acc : SelAcc ι)
    (h : ∀ p ∈ cands, ∀ g, p.2 = some g → g ≤ acc.gain) :
    selectLoop cands acc = acc := by
  induction cands with
  | nil => rfl
  | cons c cs ih =>
    have hc : selStep acc c = acc := by
      rcases c with ⟨j, g⟩
      cases g with
      | none => rfl
      | some gv =>
        have := h (j, some gv) (List.mem_cons_self _ _) gv rfl
        rw [selStep_some, if_neg (not_lt.mpr this)]
    rw [selectLoop, List.foldl_cons, hc]
    exact ih (fun p hp g hg => h p (List.mem_cons_of_mem _ hp) g hg)

/-- A bound above the incumbent and all candidates bounds the result. -/
theorem selectLoop_lt {ι : Type} (cands : List (ι × Option ℚ))
    (acc : SelAcc ι) (m : ℚ) (hacc : acc.gain < m)
    (h : ∀ p ∈ cands, ∀ g, p.2 = some g → g < m) :
    (selectLoop cands acc).gain < m := by
  induction cands generalizing acc with
  | nil => exact hacc
  | cons c cs ih =>
    rw [selectLoop, List.foldl_cons]
    have hstep : (selStep acc c).gain < m := by
      rcases c with ⟨j, g⟩
      cases g with
      | none => exact hacc
      | some gv =>
        rw [selStep_some]
        split_ifs with hcmp
        · exact h (j, some gv) (List.mem_cons_self _ _) gv rfl
        · exact hacc
    exact ih (selStep acc c) hstep
      (fun p hp g hg => h p (List.mem_cons_of_mem _ hp) g hg)

/-- Scanning a concatenation is scanning the pieces in order. -/
theorem selectLoop_append {ι : Type} (l1 l2 : List (ι × Option ℚ))
    (acc : SelAcc ι) :
    selectLoop (l1 ++ l2) acc = selectLoop l2 (selectLoop l1 acc) := by
  rw [selectLoop, selectLoop, selectLoop, List.foldl_append]

/-- Determinacy: a scan whose candidates split into a strictly-below
prefix, a winner above the incumbent, and an at-most suffix ends exactly
at the winner. -/
theorem selectLoop_determined {ι : Type} (pre post : List (ι × Option ℚ))
    (i : ι) (m : ℚ) (acc : SelAcc ι) (hacc : acc.gain < m)
    (hpre : ∀ p ∈ pre, ∀ g, p.2 = some g → g < m)
    (hpost : ∀ p ∈ post, ∀ g, p.2 = some g → g ≤ m) :
    selectLoop (pre ++ (i, some m) :: post) acc = ⟨m, some i⟩ := by
  rw [selectLoop_append]
  have h1 : (selectLoop pre acc).gain < m := selectLoop_lt pre acc m hacc hpre
  rw [selectLoop, List.foldl_cons, selStep_some, if_pos h1]
  exact selectLoop_keep post ⟨m, some i⟩ hpost

/-- Characterization of the selection loops: either no candidate strictly
beat the incumbent — it survives and every candidate gain is at most its
gain — or the result's gain strictly exceeds the incumbent's and its
published index marks the first candidate in scan order achieving that
gain, with every earlier candidate gain strictly below it and every later
one at most it. -/
theorem selectLoop_spec {ι : Type} (cands : List (ι × Option ℚ))
    (acc : SelAcc ι) :
    (selectLoop cands acc = acc ∧
      ∀ p ∈ cands, ∀ g, p.2 = some g → g ≤ acc.gain) ∨
    (∃ pre i post,
      cands = pre ++ (i, some (selectLoop cands acc).gain) :: post ∧
      (selectLoop cands acc).idx = some i ∧
      acc.gain < (selectLoop cands acc).gain ∧
      (∀ p ∈ pre, ∀ g, p.2 = some g → g < (selectLoop cands acc).gain) ∧
      (∀ p ∈ post, ∀ g, p.2 = some g → g ≤ (selectLoop cands acc).gain)) := by
  induction cands generalizing acc with
  | nil => exact Or.inl ⟨rfl, by simp⟩
  | cons c cs ih =>
    rcases c with ⟨j, gOpt⟩
    cases gOpt with
    | none =>
      have hstep : selectLoop ((j, none) :: cs) acc = selectLoop cs acc := by
        rw [selectLoop, List.foldl_cons, selStep_none]
        rfl
      rw [hstep]
      rcases ih acc with ⟨heq, hle⟩ | ⟨pre, i, post, hdec, hidx, hlt, hpre, hpost⟩
      · refine Or.inl ⟨heq, ?_⟩
        intro p hp g hg
        rcases List.mem_cons.mp hp with rfl | hp
        · simp at hg
        · exact hle p hp g hg
      · refine Or.inr ⟨(j, none) :: pre, i, post, ?_, hidx, hlt, ?_, hpost⟩
        · rw [List.cons_append, ← hdec]
        · intro p hp g hg
          rcases List.mem_cons.mp hp with rfl | hp
          · simp at hg
          · exact hpre p hp g hg
    | some gv =>
      by_cases hlt0 : acc.gain < gv
      · have hstep : selectLoop ((j, some gv) :: cs) acc =
            selectLoop cs ⟨gv, some j⟩ := by
          rw [selectLoop, List.foldl_cons, selStep_some, if_pos hlt0]
          rfl
        rw [hstep]
        rcases ih ⟨gv, some j⟩ with ⟨heq, hle⟩ |
          ⟨pre, i, post, hdec, hidx, hlt, hpre, hpost⟩
        · refine Or.inr ⟨[], j, cs, ?_, ?_, ?_, by simp, ?_⟩
          · rw [heq]
            rfl
          · rw [heq]
          · rw [heq]; exact hlt0
          · intro p hp g hg
            rw [heq]
            exact hle p hp g hg
        · refine Or.inr ⟨(j, some gv) :: pre, i, post, ?_, hidx,
            lt_trans hlt0 hlt, ?_, hpost⟩
          · rw [List.cons_append, ← hdec]
          · intro p hp g hg
            rcases List.mem_cons.mp hp with rfl | hp
            · have : g = gv := by simpa using hg.symm
              subst this
              exact hlt
            · exact hpre p hp g hg
      · have hstep : selectLoop ((j, some gv) :: cs) acc = selectLoop cs acc := by
          rw [selectLoop, List.foldl_cons, selStep_some, if_neg hlt0]
          rfl
        rw [hstep]
        rcases ih acc with ⟨heq, hle⟩ | ⟨pre, i, post, hdec, hidx, hlt, hpre, hpost⟩
        · refine Or.inl ⟨heq, ?_⟩
          intro p hp g hg
          rcases List.mem_cons.mp hp with rfl | hp
          · have : g = gv := by simpa using hg.symm
            subst this
            exact not_lt.mp hlt0
          · exact hle p hp g hg
        · refine Or.inr ⟨(j, some gv) :: pre, i, post, ?_, hidx, hlt, ?_, hpost⟩
          · rw [List.cons_append, ← hdec]
          · intro p hp g hg
            rcases List.mem_cons.mp hp with rfl | hp
            · have : g = gv := by simpa using hg.symm
              subst this
              exact lt_of_le_of_lt (not_lt.mp hlt0) hlt
            · exact hpre p hp g hg

/-- First-found order form: over a candidate list whose tags are strictly
increasing in an asymmetric, irreflexive order, a winner that beat the
incumbent is the first tag in that order achieving the maximal gain. -/
theorem selectLoop_order_spec {ι : Type} (lt : ι → ι → Prop)
    (hasym : ∀ a b, lt a b → lt b a → False)
    (hirr : ∀ a, ¬ lt a a)
    (cands : List (ι × Option ℚ)) (acc : SelAcc ι)
    (hsorted : cands.Pairwise (fun a b => lt a.1 b.1))
    (hgt : acc.gain < (selectLoop cands acc).gain) :
    ∃ i, (selectLoop cands acc).idx = some i ∧
      (i, some (selectLoop cands acc).gain) ∈ cands ∧
      (∀ p ∈ cands, ∀ g, p.2 = some g →
        g ≤ (selectLoop cands acc).gain) ∧
      (∀ p ∈ cands, lt p.1 i → ∀ g, p.2 = some g →
        g < (selectLoop cands acc).gain) := by
  rcases selectLoop_spec cands acc with ⟨heq, _⟩ |
    ⟨pre, i, post, hdec, hidx, hlt, hpre, hpost⟩
  · rw [heq] at hgt
    exact absurd hgt (lt_irrefl _)
  · refine ⟨i, hidx, ?_, ?_, ?_⟩
    · have hmem : (i, some (selectLoop cands acc).gain) ∈
          pre ++ (i, some (selectLoop cands acc).gain) :: post :=
        List.mem_append_right _ (List.mem_cons_self _ _)
      rw [← hdec] at hmem
      exact hmem
    · intro p hp g hg
      rw [hdec] at hp
      rcases List.mem_append.mp hp with hp | hp
      · exact le_of_lt (hpre p hp g hg)
      · rcases List.mem_cons.mp hp with rfl | hp
        · have : g = (selectLoop cands acc).gain := by simpa using hg.symm
          exact le_of_eq this
        · exact hpost p hp g hg
    · intro p hp hplt g hg
      rw [hdec] at hp hsorted
      rcases List.mem_append.mp hp with hp | hp
      · exact hpre p hp g hg
      · rcases List.mem_cons.mp hp with rfl | hp
        · exact absurd hplt (hirr _)
        · rcases List.pairwise_append.mp hsorted with ⟨_, hs2, _⟩
          have hwin := (List.pairwise_cons.mp hs2).1 p hp
          exact absurd hplt (fun h => hasym _ _ h hwin)

/-! ## Scan-order lemmas -/

/-- The lexicographic scan order on (uv, threshold) pairs is
asymmetric. -/
theorem lexLt_asymm (a b : Nat × Nat) : lexLt a b → lexLt b a → False := by
  rw [lexLt, lexLt]
  omega

/-- The lexicographic scan order on (uv, threshold) pairs is
irreflexive. -/
theorem lexLt_irrefl (a : Nat × Nat) : ¬ lexLt a a := by
  rw [lexLt]
  omega

/-- The global scan order is asymmetric. -/
theorem lex3Lt_asymm (a b : Nat × Nat × Nat) :
    lex3Lt a b → lex3Lt b a → False := by
  rw [lex3Lt, lex3Lt, lexLt, lexLt]
  omega

/-- The global scan order is irreflexive. -/
theorem lex3Lt_irrefl (a : Nat × Nat × Nat) : ¬ lex3Lt a a := by
  rw [lex3Lt, lexLt]
  omega

/-- Tags of `enumFrom` are strictly increasing. -/
theorem enumFrom_pairwise_fst {α : Type} (l : List α) (n : Nat) :
    (l.enumFrom n).Pairwise (fun a b => a.1 < b.1) := by
  induction l generalizing n with
  | nil => simp
  | cons x xs ih =>
    rw [List.enumFrom_cons]
    refine List.Pairwise.cons ?_ (ih (n + 1))
    intro p hp
    have := List.le_fst_of_mem_enumFrom hp
    omega

/-- Tags of a worker's candidate sequence, with uv rows numbered from
`n`, are strictly increasing in the worker's scan order. -/
theorem workerCandsFrom_pairwise (gains : List (List (Option ℚ))) (n : Nat) :
    ((gains.enumFrom n).flatMap (fun cr =>
      (cr.2.enum).map (fun tg => ((cr.1, tg.1), tg.2)))).Pairwise
      (fun a b => lexLt a.1 b.1) := by
  induction gains generalizing n with
  | nil => simp
  | cons row rows ih =>
    simp only [List.enumFrom_cons, List.flatMap_cons]
    rw [List.pairwise_append]
    refine ⟨?_, ih (n + 1), ?_⟩
    · rw [List.pairwise_map]
      exact (enumFrom_pairwise_fst row 0).imp (fun hab => Or.inr ⟨rfl, hab⟩)
    · intro a ha b hb
      obtain ⟨tg, _, rfl⟩ := List.mem_map.mp ha
      obtain ⟨cr, hcr, hb2⟩ := List.mem_flatMap.mp hb
      obtain ⟨tg2, _, rfl⟩ := List.mem_map.mp hb2
      have hle := List.le_fst_of_mem_enumFrom hcr
      refine Or.inl ?_
      show n < cr.1
      omega

/-- Tags of the full worker candidate sequence are strictly increasing in
the worker's scan order (uv index outer, threshold inner). -/
theorem workerCands_pairwise (gains : List (List (Option ℚ))) :
    (workerCands gains).Pairwise (fun a b => lexLt a.1 b.1) :=
  workerCandsFrom_pairwise gains 0

/-- Tags of the driver's candidate sequence are the worker ids in
ascending order. -/
theorem driverCands_pairwise (wg : List ℚ) :
    (driverCands wg).Pairwise (fun a b => a.1 < b.1) := by
  rw [driverCands, List.pairwise_map]
  exact (enumFrom_pairwise_fst wg 0).imp (fun h => h)

/-- Tags of the global candidate sequence, with workers numbered from
`n`, are strictly increasing in the global scan order. -/
theorem globalCandsFrom_pairwise (workers : List (List (List (Option ℚ))))
    (n : Nat) :
    ((workers.enumFrom n).flatMap (fun wp =>
      (workerCands wp.2).map (fun ctg =>
        ((wp.1, ctg.1.1, ctg.1.2), ctg.2)))).Pairwise
      (fun a b => lex3Lt a.1 b.1) := by
  induction workers generalizing n with
  | nil => simp
  | cons w ws ih =>
    simp only [List.enumFrom_cons, List.flatMap_cons]
    rw [List.pairwise_append]
    refine ⟨?_, ih (n + 1), ?_⟩
    · rw [List.pairwise_map]
      exact (workerCands_pairwise w).imp (fun hab => Or.inr ⟨rfl, hab⟩)
    · intro a ha b hb
      obtain ⟨ctg, _, rfl⟩ := List.mem_map.mp ha
      obtain ⟨wp, hwp, hb2⟩ := List.mem_flatMap.mp hb
      obtain ⟨ctg2, _, rfl⟩ := List.mem_map.mp hb2
      have hle := List.le_fst_of_mem_enumFrom hwp
      refine Or.inl ?_
      show n < wp.1
      omega

/-- Tags of the global candidate sequence are strictly increasing in the
global scan order. -/
theorem globalCands_pairwise (workers : List (List (List (Option ℚ)))) :
    (globalCands workers).Pairwise (fun a b => lex3Lt a.1 b.1) :=
  globalCandsFrom_pairwise workers 0

/-! ## Reduction composition -/

/-- One driver comparison never lowers the incumbent gain. -/
theorem driverStep_gain_le (acc : SelAcc (Nat × Nat × Nat))
    (iw : Nat × SelAcc (Nat × Nat)) :
    acc.gain ≤ (driverStep acc iw).gain := by
  rw [driverStep]
  split_ifs with h
  · exact le_of_lt h
  · exact le_refl _

/-- One driver comparison against worker `i`'s published result equals
scanning that worker's candidates, tagged with the worker id, from the
driver's incumbent. -/
theorem driverStep_workerSelect (w : List (List (Option ℚ))) (i : Nat)
    (acc : SelAcc (Nat × Nat × Nat)) (hacc : 0 ≤ acc.gain) :
    driverStep acc (i, workerSelect w) =
      selectLoop ((workerCands w).map
        (fun ctg => ((i, ctg.1.1, ctg.1.2), ctg.2))) acc := by
  rcases selectLoop_spec (workerCands w) ⟨0, none⟩ with ⟨heq, hle⟩ |
    ⟨pre, ct, post, hdec, hidx, hlt, hpre, hpost⟩
  · have hws : workerSelect w = ⟨0, none⟩ := heq
    rw [hws, driverStep, if_neg (by exact not_lt.mpr hacc)]
    symm
    apply selectLoop_keep
    intro p hp g hg
    obtain ⟨q, hq, rfl⟩ := List.mem_map.mp hp
    exact le_trans (hle q hq g hg) hacc
  · by_cases ham : acc.gain < (workerSelect w).gain
    · rw [driverStep, if_pos ham]
      have hidx2 : (workerSelect w).idx = some ct := hidx
      rw [hidx2]
      symm
      have hmap : (workerCands w).map
          (fun ctg => ((i, ctg.1.1, ctg.1.2), ctg.2)) =
            pre.map (fun ctg => ((i, ctg.1.1, ctg.1.2), ctg.2)) ++
            ((i, ct.1, ct.2), some (workerSelect w).gain) ::
            post.map (fun ctg => ((i, ctg.1.1, ctg.1.2), ctg.2)) := by
        conv_lhs => rw [show workerCands w =
          pre ++ (ct, some (workerSelect w).gain) :: post from hdec]
        rw [List.map_append, List.map_cons]
      rw [hmap]
      refine selectLoop_determined _ _ _ _ _ ham ?_ ?_
      · intro p hp g hg
        obtain ⟨q, hq, rfl⟩ := List.mem_map.mp hp
        exact hpre q hq g hg
      · intro p hp g hg
        obtain ⟨q, hq, rfl⟩ := List.mem_map.mp hp
        exact hpost q hq g hg
    · rw [driverStep, if_neg ham]
      symm
      apply selectLoop_keep
      intro p hp g hg
      obtain ⟨q, hq, rfl⟩ := List.mem_map.mp hp
      exact le_trans (selectLoop_ub (workerCands w) ⟨0, none⟩ q hq g hg)
        (not_lt.mp ham)

/-- The two-level reduction — each worker publishing its first-found best
over its slice, the driver scanning the published slots in ascending
worker id — equals one first-found scan over the global candidate
sequence. -/
theorem globalSelectFrom_eq (workers : List (List (List (Option ℚ)))) :
    ∀ (n : Nat) (acc : SelAcc (Nat × Nat × Nat)), 0 ≤ acc.gain →
    ((workers.enumFrom n).map (fun wp => (wp.1, workerSelect wp.2))).foldl
        driverStep acc =
      selectLoop ((workers.enumFrom n).flatMap (fun wp =>
        (workerCands wp.2).map (fun ctg =>
          ((wp.1, ctg.1.1, ctg.1.2), ctg.2)))) acc := by
  induction workers with
  | nil => intro n acc _; rfl
  | cons w ws ih =>
    intro n acc hacc
    simp only [List.enumFrom_cons, List.map_cons, List.flatMap_cons,
      List.foldl_cons]
    rw [selectLoop_append, ← driverStep_workerSelect w n acc hacc]
    exact ih (n + 1) (driverStep acc (n, workerSelect w))
      (le_trans hacc (driverStep_gain_le acc (n, workerSelect w)))

/-- The driver-over-workers composition equals the first-found scan of
the global candidate sequence. -/
theorem globalSelect_eq (workers : List (List (List (Option ℚ)))) :
    globalSelect workers = selectLoop (globalCands workers) ⟨0, none⟩ :=
  globalSelectFrom_eq workers 0 ⟨0, none⟩ (le_refl 0)

/-! ## C2: interrupted-run serialization -/

/-- C2: after a SIGINT that stops a fresh max_depth = 2 run right after
its first node expansion, the in-memory tree is as the claim says — the
expanded root has `label_pr_idx = 0` and both untouched children retain
the untrained sentinel — but the best-effort serialization is not:
`recursive_build_tree` treats each untrained child (`label_pr_idx =
INT_MAX ≠ 0`) as a leaf and reads probability table `INT_MAX − 1`, far
outside the emitted probability-table list (empty here, since no leaf
completed), so the claim's in-bounds part fails on the code. -/
theorem c2_interrupted_serialization_reads_out_of_bounds :
    (interruptedState.tree.getD 0 RNode.zero).label_pr_idx = 0 ∧
    (interruptedState.tree.getD 1 RNode.zero).label_pr_idx = INT_MAX ∧
    (interruptedState.tree.getD 2 RNode.zero).label_pr_idx = INT_MAX ∧
    buildTreeReads interruptedTree = [INT_MAX - 1, INT_MAX - 1] ∧
    interruptedTree.tables.length = 0 ∧
    ¬ (∀ k ∈ buildTreeReads interruptedTree,
        k < interruptedTree.tables.length) := by
  have htree : interruptedState.tree =
      [⟨0, ⟨0, 0, 0, 0⟩, 0⟩, ⟨INT_MAX, ⟨0, 0, 0, 0⟩, 0⟩,
        ⟨INT_MAX, ⟨0, 0, 0, 0⟩, 0⟩] := by
    norm_num [interruptedState, trainRun, trainStep, freshState, freshTree,
      collect_pixels, collectPixelsFrom, pixelGradient, sample_uv, ratTrunc,
      ctxTwoPixel, pixelsTwo, bestAlwaysSplit, List.replicate, INT_MAX,
      RNode.zero]
  have htables : interruptedState.histograms = [] := by
    norm_num [interruptedState, trainRun, trainStep, freshState, freshTree,
      collect_pixels, collectPixelsFrom, pixelGradient, sample_uv, ratTrunc,
      ctxTwoPixel, pixelsTwo, bestAlwaysSplit, List.replicate, INT_MAX]
  have hreads : buildTreeReads interruptedTree = [INT_MAX - 1, INT_MAX - 1] := by
    rw [buildTreeReads]
    show buildTreeReadsAux interruptedTree interruptedTree.depth 0 0 =
      [INT_MAX - 1, INT_MAX - 1]
    have hd : interruptedTree.depth = 2 := rfl
    rw [hd]
    norm_num [buildTreeReadsAux, interruptedTree, htree, INT_MAX]
  refine ⟨?_, ?_, ?_, hreads, ?_, ?_⟩
  · rw [htree]; rfl
  · rw [htree]; rfl
  · rw [htree]; rfl
  · show interruptedState.histograms.length = 0
    rw [htables]; rfl
  · intro hall
    have := hall (INT_MAX - 1) (by rw [hreads]; exact List.mem_cons_self _ _)
    have hlen : interruptedTree.tables.length = 0 := by
      show interruptedState.histograms.length = 0
      rw [htables]; rfl
    rw [hlen] at this
    omega

/-! ## Histogram-accounting lemmas -/

/-- One training-loop iteration leaves the histogram list untouched
(interior node) or appends exactly one table while incrementing the
counter (leaf). -/
theorem trainStep_histograms (ctx : Ctx) (maxDepth : Nat)
    (best : NodeRec → BestSplit) (st : TrainState) :
    ((trainStep ctx maxDepth best st).histograms = st.histograms ∧
      (trainStep ctx maxDepth best st).nHistograms = st.nHistograms) ∨
    (∃ tbl, (trainStep ctx maxDepth best st).histograms =
        st.histograms ++ [tbl] ∧
      (trainStep ctx maxDepth best st).nHistograms = st.nHistograms + 1) := by
  rcases hq : st.queue with _ | ⟨nd, rest⟩
  · left
    simp [trainStep, hq]
  · simp only [trainStep, hq]
    split_ifs with h
    · left
      exact ⟨rfl, rfl⟩
    · right
      exact ⟨_, rfl, rfl⟩

/-- One checkpoint-walk iteration leaves the histogram list untouched or
appends exactly one stored table while incrementing the counter. -/
theorem walkStep_histograms (ctx : Ctx) (maxDepth : Nat) (ckpt : Checkpoint)
    (tree : List RNode) (ws : WalkState) :
    ((walkStep ctx maxDepth ckpt tree ws).histograms = ws.histograms ∧
      (walkStep ctx maxDepth ckpt tree ws).nHistograms = ws.nHistograms) ∨
    (∃ tbl, (walkStep ctx maxDepth ckpt tree ws).histograms =
        ws.histograms ++ [tbl] ∧
      (walkStep ctx maxDepth ckpt tree ws).nHistograms = ws.nHistograms + 1) := by
  rcases hq : ws.ckptQueue with _ | ⟨nd, rest⟩
  · left
    simp [walkStep, hq]
  · simp only [walkStep, hq]
    split_ifs with h1 h2 h3 h4 h5
    all_goals first
      | (left; exact ⟨rfl, rfl⟩)
      | (right; exact ⟨_, rfl, rfl⟩)

/-- Over any number of training-loop iterations the histogram list only
grows by appending, and its length tracks `n_histograms`. -/
theorem trainRun_histograms (ctx : Ctx) (maxDepth : Nat)
    (best : NodeRec → BestSplit) (k : Nat) (st : TrainState)
    (h : st.histograms.length = st.nHistograms) :
    (trainRun ctx maxDepth best k st).histograms.length =
      (trainRun ctx maxDepth best k st).nHistograms ∧
    ∃ tail, (trainRun ctx maxDepth best k st).histograms =
      st.histograms ++ tail := by
  induction k generalizing st with
  | zero => exact ⟨h, [], by simp [trainRun]⟩
  | succ k ih =>
    rw [trainRun]
    rcases trainStep_histograms ctx maxDepth best st with ⟨he, hn⟩ |
      ⟨tbl, he, hn⟩
    · obtain ⟨hlen, tail, htail⟩ := ih (trainStep ctx maxDepth best st)
        (by rw [he, hn]; exact h)
      exact ⟨hlen, tail, by rw [htail, he]⟩
    · obtain ⟨hlen, tail, htail⟩ := ih (trainStep ctx maxDepth best st)
        (by rw [he, hn, List.length_append, h]; rfl)
      refine ⟨hlen, [tbl] ++ tail, ?_⟩
      rw [htail, he, List.append_assoc]

/-- Over any number of checkpoint-walk iterations the histogram list only
grows by appending, and its length tracks `n_histograms`. -/
theorem walkRun_histograms (ctx : Ctx) (maxDepth : Nat) (ckpt : Checkpoint)
    (tree : List RNode) (k : Nat) (ws : WalkState)
    (h : ws.histograms.length = ws.nHistograms) :
    (walkRun ctx maxDepth ckpt tree k ws).histograms.length =
      (walkRun ctx maxDepth ckpt tree k ws).nHistograms ∧
    ∃ tail, (walkRun ctx maxDepth ckpt tree k ws).histograms =
      ws.histograms ++ tail := by
  induction k generalizing ws with
  | zero => exact ⟨h, [], by simp [walkRun]⟩
  | succ k ih =>
    rw [walkRun]
    rcases walkStep_histograms ctx maxDepth ckpt tree ws with ⟨he, hn⟩ |
      ⟨tbl, he, hn⟩
    · obtain ⟨hlen, tail, htail⟩ := ih (walkStep ctx maxDepth ckpt tree ws)
        (by rw [he, hn]; exact h)
      exact ⟨hlen, tail, by rw [htail, he]⟩
    · obtain ⟨hlen, tail, htail⟩ := ih (walkStep ctx maxDepth ckpt tree ws)
        (by rw [he, hn, List.length_append, h]; rfl)
      refine ⟨hlen, [tbl] ++ tail, ?_⟩
      rw [htail, he, List.append_assoc]

/-! ## C4: probability tables after a deeper resume -/

/-- C4 counterexample: resuming the fully trained depth-1 checkpoint
`ckptDepthOne` at max_depth = 2 appends the stored leaf's table during
the walk and then re-enqueues that same stored-depth leaf; retraining it
(no positive gain) turns it into a fresh leaf with a new table, leaving
the stored table orphaned — the final probability-table list has 2
entries while the final tree has exactly 1 leaf. -/
theorem c4_resume_orphans_table :
    resumedState.histograms.length = 2 ∧
    leafCount resumedState.tree = 1 ∧
    ¬ resumedState.histograms.length = leafCount resumedState.tree := by
  have hh : resumedState.histograms = [[1], [1]] := by
    norm_num [resumedState, resumeRun, walkRun, walkStep, trainRun,
      trainStep, reloadTree, ckptDepthOne, ctxOnePixel, pixelOne,
      bestNeverSplit, walkEnqueue, rootHistogram, normalize_histogram,
      INT_MAX, RNode.zero, List.replicate]
  have ht : resumedState.tree =
      [⟨2, ⟨0, 0, 0, 0⟩, 0⟩, RNode.zero, RNode.zero] := by
    norm_num [resumedState, resumeRun, walkRun, walkStep, trainRun,
      trainStep, reloadTree, ckptDepthOne, ctxOnePixel, pixelOne,
      bestNeverSplit, walkEnqueue, rootHistogram, normalize_histogram,
      INT_MAX, RNode.zero, List.replicate]
  refine ⟨by rw [hh]; rfl, ?_, ?_⟩
  · rw [ht]
    norm_num [leafCount, List.filter, RNode.zero, INT_MAX]
  · rw [hh, ht]
    norm_num [leafCount, List.filter, RNode.zero, INT_MAX]

/-- C4 amended: the probability-table list grows append-only with its
length always equal to `n_histograms` — restored tables keep their
original 1-based positions and every newly trained leaf appends exactly
one table — but a stored-depth leaf visited by the walk under a deeper
max_depth has its table appended AND is re-enqueued for training, so
retraining it orphans that table and the final list length exceeds the
final leaf count by one entry per such leaf, instead of matching it. -/
theorem c4_resume_table_accounting
    (ctx : Ctx) (maxDepth : Nat) (best : NodeRec → BestSplit)
    (ckpt : Checkpoint) (tree : List RNode)
    (st : TrainState) (ws : WalkState) (nd : NodeRec) (rest : List NodeRec)
    (k : Nat)
    (hinvT : st.histograms.length = st.nHistograms)
    (hinvW : ws.histograms.length = ws.nHistograms)
    (hq : ws.ckptQueue = nd :: rest)
    (hleaf : (tree.getD nd.id RNode.zero).label_pr_idx ≠ 0 ∧
      (tree.getD nd.id RNode.zero).label_pr_idx ≠ INT_MAX)
    (hdeep : nd.depth = ckpt.depth - 1 ∧ ckpt.depth < maxDepth) :
    ((trainRun ctx maxDepth best k st).histograms.length =
      (trainRun ctx maxDepth best k st).nHistograms) ∧
    (∃ tail, (trainRun ctx maxDepth best k st).histograms =
      st.histograms ++ tail) ∧
    ((walkRun ctx maxDepth ckpt tree k ws).histograms.length =
      (walkRun ctx maxDepth ckpt tree k ws).nHistograms) ∧
    (∃ tail, (walkRun ctx maxDepth ckpt tree k ws).histograms =
      ws.histograms ++ tail) ∧
    ((walkStep ctx maxDepth ckpt tree ws).histograms =
      ws.histograms ++ [ckpt.tables.getD
        ((tree.getD nd.id RNode.zero).label_pr_idx - 1) []] ∧
     (walkStep ctx maxDepth ckpt tree ws).trainQueue =
      walkEnqueue ws.trainQueue nd ∧
     (walkStep ctx maxDepth ckpt tree ws).nHistograms =
      ws.nHistograms + 1) := by
  obtain ⟨ht1, ht2⟩ := trainRun_histograms ctx maxDepth best k st hinvT
  obtain ⟨hw1, hw2⟩ := walkRun_histograms ctx maxDepth ckpt tree k ws hinvW
  refine ⟨ht1, ht2, hw1, hw2, ?_⟩
  simp only [walkStep, hq]
  rw [if_pos hleaf, if_pos (Or.inr hdeep)]
  exact ⟨rfl, rfl, rfl⟩

/-- Witness for `c4_resume_table_accounting` on the concrete deeper
resume of `ckptDepthOne`. -/
theorem c4_witness :
    (walkStep ctxOnePixel 2 ckptDepthOne (reloadTree 2 ckptDepthOne)
        ⟨[⟨0, 0, pixelOne⟩], [], [], 0⟩).histograms =
      [] ++ [ckptDepthOne.tables.getD
        (((reloadTree 2 ckptDepthOne).getD 0 RNode.zero).label_pr_idx - 1)
        []] := by
  have h := c4_resume_table_accounting ctxOnePixel 2 bestNeverSplit
    ckptDepthOne (reloadTree 2 ckptDepthOne)
    ⟨reloadTree 2 ckptDepthOne, [], [], 0⟩
    ⟨[⟨0, 0, pixelOne⟩], [], [], 0⟩ ⟨0, 0, pixelOne⟩ [] 1
    rfl rfl rfl
    (by norm_num [reloadTree, ckptDepthOne, RNode.zero, INT_MAX])
    (by norm_num [ckptDepthOne])
  exact h.2.2.2.2.1

/-! ## C5: non-negative gain and the interior/leaf decision -/

/-- C5: the retained best gain is never negative — the worker's published
gain and the driver's reduced gain both start at 0 and are only replaced
by strictly greater values — and the driver writes an interior node
(`label_pr_idx = 0` with the uv pair and threshold stored, both children
enqueued at the queue's tail) exactly when the reduced best gain is
strictly positive and the child depth is still below max_depth; in every
other case the node becomes a leaf whose probability table is the
normalized root histogram of the node's pixels. -/
theorem c5_gain_nonneg_and_split_decision
    (gains : List (List (Option ℚ))) (workerGains : List ℚ)
    (ctx : Ctx) (maxDepth : Nat) (best : NodeRec → BestSplit)
    (st : TrainState) (nd : NodeRec) (rest : List NodeRec)
    (hq : st.queue = nd :: rest) :
    0 ≤ (workerSelect gains).gain ∧
    0 ≤ (driverReduce workerGains).gain ∧
    (0 < (best nd).gain ∧ nd.depth + 1 < maxDepth →
      (trainStep ctx maxDepth best st).tree =
        st.tree.set nd.id ⟨0, (best nd).uv, (best nd).t⟩ ∧
      (trainStep ctx maxDepth best st).queue =
        rest ++
          [⟨2 * nd.id + 1, nd.depth + 1,
            (collect_pixels ctx nd.pixels (best nd).uv (best nd).t).1⟩,
           ⟨2 * nd.id + 2, nd.depth + 1,
            (collect_pixels ctx nd.pixels (best nd).uv (best nd).t).2⟩] ∧
      (trainStep ctx maxDepth best st).histograms = st.histograms) ∧
    (¬ (0 < (best nd).gain ∧ nd.depth + 1 < maxDepth) →
      (trainStep ctx maxDepth best st).tree =
        st.tree.set nd.id
          { st.tree.getD nd.id RNode.zero with
              label_pr_idx := st.nHistograms + 1 } ∧
      (trainStep ctx maxDepth best st).queue = rest ∧
      (trainStep ctx maxDepth best st).histograms =
        st.histograms ++
          [(normalize_histogram (rootHistogram ctx nd.pixels)).2]) := by
  refine ⟨selectLoop_gain_le _ ⟨0, none⟩, selectLoop_gain_le _ ⟨0, none⟩,
    ?_, ?_⟩
  · intro hcond
    simp only [trainStep, hq]
    rw [if_pos hcond]
    exact ⟨rfl, rfl, rfl⟩
  · intro hcond
    simp only [trainStep, hq]
    rw [if_neg hcond]
    exact ⟨rfl, rfl, rfl⟩

/-- Witness for `c5_gain_nonneg_and_split_decision`: the fresh 1×1-corpus
state under the never-split oracle takes the leaf branch and appends the
normalized root histogram. -/
theorem c5_witness :
    (trainStep ctxOnePixel 2 bestNeverSplit (freshState 2 pixelOne)).histograms
      = (freshState 2 pixelOne).histograms ++
        [(normalize_histogram (rootHistogram ctxOnePixel pixelOne)).2] := by
  have h := c5_gain_nonneg_and_split_decision [[some 1]] [1] ctxOnePixel 2
    bestNeverSplit (freshState 2 pixelOne) ⟨0, 0, pixelOne⟩ [] rfl
  refine (h.2.2.2 ?_).2.2
  intro hcond
  have : (0 : ℚ) < 0 := hcond.1
  exact absurd this (lt_irrefl 0)

/-! ## C7: first-found tie-breaking -/

/-- C7: an incumbent best is replaced only by a strictly greater gain;
when a worker publishes a positive best gain, its published
(uv, threshold) pair is the first in the worker's scan order (uv index
outer, threshold inner) achieving the maximal gain of its slice; when the
driver's reduction ends positive, the winning worker id is the first, in
ascending id order, among the per-worker bests achieving their maximum;
and the composition of the two levels selects exactly the first candidate
of the global (worker id, uv index, threshold index) scan order achieving
the global maximal gain. -/
theorem c7_first_found_best_split
    (gains : List (List (Option ℚ))) (workerGains : List ℚ)
    (workers : List (List (List (Option ℚ))))
    (h1 : 0 < (workerSelect gains).gain)
    (h2 : 0 < (driverReduce workerGains).gain)
    (h3 : 0 < (globalSelect workers).gain) :
    (∀ (acc : SelAcc (Nat × Nat)) (cand : (Nat × Nat) × Option ℚ),
      selStep acc cand ≠ acc → ∃ g, cand.2 = some g ∧ acc.gain < g) ∧
    (∃ ct, (workerSelect gains).idx = some ct ∧
      (ct, some (workerSelect gains).gain) ∈ workerCands gains ∧
      (∀ p ∈ workerCands gains, ∀ g, p.2 = some g →
        g ≤ (workerSelect gains).gain) ∧
      (∀ p ∈ workerCands gains, lexLt p.1 ct → ∀ g, p.2 = some g →
        g < (workerSelect gains).gain)) ∧
    (∃ i, (driverReduce workerGains).idx = some i ∧
      (i, some (driverReduce workerGains).gain) ∈ driverCands workerGains ∧
      (∀ p ∈ driverCands workerGains, ∀ g, p.2 = some g →
        g ≤ (driverReduce workerGains).gain) ∧
      (∀ p ∈ driverCands workerGains, p.1 < i → ∀ g, p.2 = some g →
        g < (driverReduce workerGains).gain)) ∧
    (∃ ict, (globalSelect workers).idx = some ict ∧
      (ict, some (globalSelect workers).gain) ∈ globalCands workers ∧
      (∀ p ∈ globalCands workers, ∀ g, p.2 = some g →
        g ≤ (globalSelect workers).gain) ∧
      (∀ p ∈ globalCands workers, lex3Lt p.1 ict → ∀ g, p.2 = some g →
        g < (globalSelect workers).gain)) := by
  refine ⟨?_, ?_, ?_, ?_⟩
  · intro acc cand hne
    rcases cand with ⟨j, g⟩
    cases g with
    | none => exact absurd (selStep_none acc j) hne
    | some gv =>
      refine ⟨gv, rfl, ?_⟩
      by_contra hnot
      exact hne (by rw [selStep_some, if_neg hnot])
  · exact selectLoop_order_spec lexLt lexLt_asymm lexLt_irrefl
      (workerCands gains) ⟨0, none⟩ (workerCands_pairwise gains) h1
  · exact selectLoop_order_spec (fun a b => a < b)
      (fun a b ha hb => by omega) (fun a => by omega)
      (driverCands workerGains) ⟨0, none⟩
      (driverCands_pairwise workerGains) h2
  · have heq := globalSelect_eq workers
    rw [heq] at h3
    rw [heq]
    exact selectLoop_order_spec lex3Lt lex3Lt_asymm lex3Lt_irrefl
      (globalCands workers) ⟨0, none⟩ (globalCands_pairwise workers) h3

/-- Witness for `c7_first_found_best_split` at one worker holding the
single candidate gain 1. -/
theorem c7_witness :
    ∃ ct, (workerSelect [[some (1 : ℚ)]]).idx = some ct ∧
      (ct, some (workerSelect [[some (1 : ℚ)]]).gain) ∈
        workerCands [[some (1 : ℚ)]] ∧
      (∀ p ∈ workerCands [[some (1 : ℚ)]], ∀ g, p.2 = some g →
        g ≤ (workerSelect [[some (1 : ℚ)]]).gain) ∧
      (∀ p ∈ workerCands [[some (1 : ℚ)]], lexLt p.1 ct → ∀ g,
        p.2 = some g → g < (workerSelect [[some (1 : ℚ)]]).gain) := by
  have h := c7_first_found_best_split [[some (1 : ℚ)]] [(1 : ℚ)]
    [[[some (1 : ℚ)]]]
    (by norm_num [workerSelect, selectLoop, workerCands, selStep,
      List.enum, List.enumFrom])
    (by norm_num [driverReduce, driverCands, selectLoop, selStep,
      List.enum, List.enumFrom])
    (by rw [globalSelect_eq]
        norm_num [globalCands, workerCands, selectLoop, selStep,
          List.enum, List.enumFrom])
  exact h.2.1

/-! ## C8: serialization failure and the driver's result -/

/-- C8 counterexample: when the tree writer reports a non-success status,
`save_tree_json` itself returns false, but the driver discards that
result (glimpse_rdt.cc:1216) and `gm_rdt_context_train` still returns
true — the claim that the driver's boolean result is false fails. -/
theorem c8_train_ignores_serialization_failure :
    save_tree_json JSONStatus.failure = false ∧
    (trainEpilogue [] JSONStatus.failure).2 = true :=
  ⟨rfl, rfl⟩

/-- C8 amended: a failing tree writer makes `save_tree_json` report the
failure and return false, but `gm_rdt_context_train` ignores the returned
status and its own result is true regardless of the serializer's
status. -/
theorem c8_epilogue_always_true (histograms : List (List ℚ))
    (status : JSONStatus) :
    (trainEpilogue histograms status).2 = true ∧
    (save_tree_json status = false ↔ status = JSONStatus.failure) := by
  refine ⟨rfl, ?_⟩
  cases status <;> simp [save_tree_json]

/-! ## Inference accumulation lemmas -/

/-- Accumulating into a slot preserves the accumulator length. -/
theorem addAt_length (out : List ℚ) (i : Nat) (x : ℚ) :
    (addAt out i x).length = out.length := by
  rw [addAt, List.length_set]

/-- Accumulating into a slot inside the accumulator raises its sum by the
added mass. -/
theorem addAt_sum (out : List ℚ) (i : Nat) (x : ℚ) (h : i < out.length) :
    (addAt out i x).sum = out.sum + x := by
  induction out generalizing i with
  | nil => simp at h
  | cons a as ih =>
    cases i with
    | zero =>
      simp [addAt]
      ring
    | succ n =>
      have hn : n < as.length := by simpa using h
      have hstep : addAt (a :: as) (n + 1) x = a :: addAt as n x := rfl
      rw [hstep, List.sum_cons, List.sum_cons, ih n hn]
      ring

/-- Folding `addAt` over index-value pairs whose targets stay inside the
accumulator adds the total mass and preserves the length. -/
theorem foldl_addAt_sum (L : List (Nat × ℚ)) (f : Nat → Nat) (out : List ℚ)
    (h : ∀ nv ∈ L, f nv.1 < out.length) :
    ((L.foldl (fun o nv => addAt o (f nv.1) nv.2) out).sum =
      out.sum + (L.map (fun nv => nv.2)).sum) ∧
    (L.foldl (fun o nv => addAt o (f nv.1) nv.2) out).length = out.length := by
  induction L generalizing out with
  | nil => simp
  | cons nv L ih =>
    have h1 : f nv.1 < out.length := h nv (List.mem_cons_self _ _)
    obtain ⟨hs, hl⟩ := ih (addAt out (f nv.1) nv.2)
      (fun p hp => by
        rw [addAt_length]
        exact h p (List.mem_cons_of_mem _ hp))
    rw [List.foldl_cons]
    constructor
    · rw [hs, addAt_sum out _ _ h1, List.map_cons, List.sum_cons]
      ring
    · rw [hl, addAt_length]

/-- Accumulating one leaf table adds exactly its total mass when its
length fits the accumulator and the flip-map targets stay inside. -/
theorem accumTable_sum (flipMap : Option (List Nat)) (flip : Bool)
    (out table : List ℚ) (hlen : table.length ≤ out.length)
    (hfm : ∀ fm, flipMap = some fm → ∀ n, fm.getD n 0 < out.length) :
    (accumTable flipMap flip out table).sum = out.sum + table.sum ∧
    (accumTable flipMap flip out table).length = out.length := by
  have henum : ∀ nv ∈ table.enum, nv.1 < out.length := by
    intro nv hnv
    have := List.fst_lt_add_of_mem_enumFrom hnv
    simp at this
    omega
  have hsnd : (table.enum.map (fun nv => nv.2)).sum = table.sum := by
    have := List.enum_map_snd table
    calc (table.enum.map (fun nv => nv.2)).sum
        = (table.enum.map Prod.snd).sum := rfl
      _ = table.sum := by rw [this]
  rcases flipMap with _ | fm
  · have heq : accumTable none flip out table =
        table.enum.foldl (fun o nv => addAt o ((fun n => n) nv.1) nv.2) out := by
      rfl
    rw [heq]
    obtain ⟨hs, hl⟩ := foldl_addAt_sum table.enum (fun n => n) out henum
    rw [hsnd] at hs
    exact ⟨hs, hl⟩
  · cases flip with
    | false =>
      have heq : accumTable (some fm) false out table =
          table.enum.foldl (fun o nv => addAt o ((fun n => n) nv.1) nv.2) out := by
        rfl
      rw [heq]
      obtain ⟨hs, hl⟩ := foldl_addAt_sum table.enum (fun n => n) out henum
      rw [hsnd] at hs
      exact ⟨hs, hl⟩
    | true =>
      have heq : accumTable (some fm) true out table =
          table.enum.foldl
            (fun o nv => addAt o ((fun n => fm.getD n 0) nv.1) nv.2) out := by
        rfl
      rw [heq]
      obtain ⟨hs, hl⟩ := foldl_addAt_sum table.enum (fun n => fm.getD n 0) out
        (fun nv _ => hfm fm rfl nv.1)
      rw [hsnd] at hs
      exact ⟨hs, hl⟩

/-- A successful tree/flip pass adds exactly mass 1 when the tree's
tables sum to 1, fit the accumulator, and the flip-map targets stay
inside. -/
theorem accumOne_sum (flipMap : Option (List Nat)) (depthImage : Nat → ℚ)
    (width height : Nat) (bgDepth : ℚ) (px py : Nat) (d : ℚ)
    (out out2 : List ℚ) (tree : RDTreeM) (flip : Bool)
    (htab : ∀ tbl ∈ tree.tables, tbl.length ≤ out.length ∧ tbl.sum = 1)
    (hfm : ∀ fm, flipMap = some fm → ∀ n, fm.getD n 0 < out.length)
    (hrun : accumOne flipMap depthImage width height bgDepth px py d out
      tree flip = some out2) :
    out2.sum = out.sum + 1 ∧ out2.length = out.length := by
  rw [accumOne] at hrun
  rcases hleaf : inferLeaf tree depthImage width height bgDepth px py d flip
      tree.depth 0 with _ | leaf
  · rw [hleaf] at hrun
    cases hrun
  · rw [hleaf] at hrun
    have hred : (match some leaf with
        | none => none
        | some leaf =>
          if leaf.label_pr_idx - 1 < tree.tables.length then
            some (accumTable flipMap flip out
              (tree.tables.getD (leaf.label_pr_idx - 1) []))
          else none) =
        (if leaf.label_pr_idx - 1 < tree.tables.length then
          some (accumTable flipMap flip out
            (tree.tables.getD (leaf.label_pr_idx - 1) []))
        else none) := rfl
    rw [hred] at hrun
    by_cases hidx : leaf.label_pr_idx - 1 < tree.tables.length
    · rw [if_pos hidx] at hrun
      have hmem : tree.tables.getD (leaf.label_pr_idx - 1) [] ∈ tree.tables := by
        rw [List.getD_eq_getElem?_getD, List.getElem?_eq_getElem hidx]
        exact List.getElem_mem ..
      obtain ⟨hle, hone⟩ := htab _ hmem
      obtain ⟨hs, hl⟩ := accumTable_sum flipMap flip out
        (tree.tables.getD (leaf.label_pr_idx - 1) []) hle hfm
      cases hrun
      rw [hs, hone]
      exact ⟨rfl, hl⟩
    · rw [if_neg hidx] at hrun
      cases hrun

/-- The pass fold starting from a failed accumulator fails. -/
theorem passes_foldl_none (flipMap : Option (List Nat))
    (depthImage : Nat → ℚ) (width height : Nat) (bgDepth : ℚ)
    (px py : Nat) (d : ℚ) (passes : List (RDTreeM × Bool)) :
    passes.foldl (fun acc trfl =>
      match acc with
      | none => none
      | some o => accumOne flipMap depthImage width height bgDepth px py d o
          trfl.1 trfl.2) none = none := by
  induction passes with
  | nil => rfl
  | cons tf rest ih => rw [List.foldl_cons]; exact ih

/-- A successful pass fold adds mass 1 per pass and preserves the
accumulator length. -/
theorem passes_foldl_sum (flipMap : Option (List Nat))
    (depthImage : Nat → ℚ) (width height : Nat) (bgDepth : ℚ)
    (px py : Nat) (d : ℚ) (passes : List (RDTreeM × Bool))
    (out0 out : List ℚ)
    (htab : ∀ tf ∈ passes, ∀ tbl ∈ tf.1.tables,
      tbl.length ≤ out0.length ∧ tbl.sum = 1)
    (hfm : ∀ fm, flipMap = some fm → ∀ n, fm.getD n 0 < out0.length)
    (hrun : passes.foldl (fun acc trfl =>
      match acc with
      | none => none
      | some o => accumOne flipMap depthImage width height bgDepth px py d o
          trfl.1 trfl.2) (some out0) = some out) :
    out.sum = out0.sum + passes.length ∧ out.length = out0.length := by
  induction passes generalizing out0 with
  | nil =>
    cases hrun
    simp
  | cons tf rest ih =>
    rw [List.foldl_cons] at hrun
    have hred : (match some out0 with
        | none => none
        | some o => accumOne flipMap depthImage width height bgDepth px py d o
            tf.1 tf.2) =
        accumOne flipMap depthImage width height bgDepth px py d out0
          tf.1 tf.2 := rfl
    rw [hred] at hrun
    rcases hstep : accumOne flipMap depthImage width height bgDepth px py d
        out0 tf.1 tf.2 with _ | out1
    · rw [hstep] at hrun
      rw [passes_foldl_none] at hrun
      cases hrun
    · rw [hstep] at hrun
      obtain ⟨hs1, hl1⟩ := accumOne_sum flipMap depthImage width height
        bgDepth px py d out0 out1 tf.1 tf.2
        (htab tf (List.mem_cons_self _ _)) hfm hstep
      obtain ⟨hs2, hl2⟩ := ih out1
        (fun tf2 htf2 tbl htbl => by
          rw [hl1]
          exact htab tf2 (List.mem_cons_of_mem _ htf2) tbl htbl)
        (fun fm hfmeq n => by
          rw [hl1]
          exact hfm fm hfmeq n)
        hrun
      constructor
      · rw [hs2, hs1, List.length_cons]
        push_cast
        ring
      · rw [hl2, hl1]

/-- Dividing every entry divides the sum. -/
theorem sum_map_div (l : List ℚ) (d : ℚ) :
    (l.map (fun v => v / d)).sum = l.sum / d := by
  induction l with
  | nil => simp
  | cons a as ih =>
    rw [List.map_cons, List.sum_cons, List.sum_cons, ih, add_div]

/-- The pass list visits every tree once per flip pass. -/
theorem passes_length (forest : List RDTreeM) (flipMap : Option (List Nat)) :
    (forest.flatMap (fun tr =>
      (flipPasses flipMap).map (fun fl => (tr, fl)))).length =
    forest.length * (flipPasses flipMap).length := by
  induction forest with
  | nil => simp
  | cons tr rest ih =>
    rw [List.flatMap_cons, List.length_append, List.length_map, ih,
      List.length_cons]
    ring

/-! ## C10: per-pixel probabilities sum to one -/

/-- C10: assuming every leaf probability table of every tree of the
forest has `n_labels` entries summing to 1 and the flip map (when
present) permutes the label indices (all its targets stay below
`n_labels`), the per-pixel output of the inference kernel sums to 1: a
background-depth pixel receives exactly the unit mass at `bg_label`, and
any other pixel receives the leaf tables of all traversals averaged by
trees × passes. -/
theorem c10_infer_pixel_prob_sums_to_one
    (forest : List RDTreeM) (nLabels : Nat) (bgDepth : ℚ) (bgLabel : Nat)
    (flipMap : Option (List Nat)) (depthImage : Nat → ℚ)
    (width height px py : Nat) (out : List ℚ)
    (hbg : bgLabel < nLabels)
    (htables : ∀ tr ∈ forest, ∀ tbl ∈ tr.tables,
      tbl.length = nLabels ∧ tbl.sum = 1)
    (hfm : ∀ fm, flipMap = some fm → ∀ v ∈ fm, v < nLabels)
    (hne : forest ≠ [])
    (hrun : inferPixel forest nLabels bgDepth bgLabel flipMap depthImage
      width height px py = some out) :
    out.sum = 1 ∧
    (bgDepth ≤ depthImage (py * width + px) →
      out = addAt (List.replicate nLabels 0) bgLabel 1) := by
  have hfm2 : ∀ fm, flipMap = some fm → ∀ n,
      fm.getD n 0 < (List.replicate nLabels (0 : ℚ)).length := by
    intro fm hf n
    rw [List.length_replicate]
    by_cases hn : n < fm.length
    · refine hfm fm hf _ ?_
      rw [List.getD_eq_getElem?_getD, List.getElem?_eq_getElem hn]
      exact List.getElem_mem ..
    · rw [List.getD_eq_getElem?_getD, List.getElem?_eq_none (by omega)]
      exact lt_of_le_of_lt (Nat.zero_le _) hbg
  simp only [inferPixel] at hrun
  by_cases hbgd : bgDepth ≤ depthImage (py * width + px)
  · rw [if_pos hbgd] at hrun
    cases hrun
    constructor
    · rw [addAt_sum _ _ _ (by rw [List.length_replicate]; exact hbg)]
      simp
    · intro _
      rfl
  · rw [if_neg hbgd] at hrun
    rcases hacc : (forest.flatMap (fun tr =>
        (flipPasses flipMap).map (fun fl => (tr, fl)))).foldl
        (fun acc trfl =>
          match acc with
          | none => none
          | some o => accumOne flipMap depthImage width height bgDepth px py
              (depthImage (py * width + px)) o trfl.1 trfl.2)
        (some (List.replicate nLabels 0)) with _ | outAcc
    · rw [hacc] at hrun
      cases hrun
    · rw [hacc] at hrun
      cases hrun
      obtain ⟨hs, _⟩ := passes_foldl_sum flipMap depthImage width height
        bgDepth px py (depthImage (py * width + px)) _
        (List.replicate nLabels 0) outAcc
        (fun tf htf tbl htbl => by
          obtain ⟨tr, htr, hmap⟩ := List.mem_flatMap.mp htf
          obtain ⟨fl, _, rfl⟩ := List.mem_map.mp hmap
          obtain ⟨hl, h1⟩ := htables tr htr tbl htbl
          exact ⟨by rw [hl, List.length_replicate], h1⟩)
        hfm2 hacc
      constructor
      · rw [sum_map_div, hs]
        have hrep : (List.replicate nLabels (0 : ℚ)).sum = 0 := by simp
        rw [hrep, passes_length, zero_add]
        have hpos : 0 < forest.length * (flipPasses flipMap).length := by
          have h1 : 0 < forest.length := List.length_pos.mpr hne
          have h2 : 0 < (flipPasses flipMap).length := by
            rcases flipMap with _ | fm <;> simp [flipPasses]
          exact Nat.mul_pos h1 h2
        rw [div_self (by exact_mod_cast hpos.ne')]
      · intro habs
        exact absurd habs hbgd

/-- Witness for `c10_infer_pixel_prob_sums_to_one` on a one-tree,
one-label forest over a constant depth-1 frame. -/
theorem c10_witness :
    ∃ out, inferPixel [⟨1, 1, [⟨1, ⟨0, 0, 0, 0⟩, 0⟩], [[1]]⟩] 1 8 0 none
        (fun _ => 1) 1 1 0 0 = some out ∧ out.sum = 1 := by
  have hrun : inferPixel [⟨1, 1, [⟨1, ⟨0, 0, 0, 0⟩, 0⟩], [[1]]⟩] 1 8 0 none
      (fun _ => 1) 1 1 0 0 = some [1] := by
    norm_num [inferPixel, inferLeaf, accumOne, accumTable, addAt,
      flipPasses, List.enum, List.enumFrom, List.replicate]
  refine ⟨[1], hrun, ?_⟩
  refine (c10_infer_pixel_prob_sums_to_one _ 1 8 0 none _ 1 1 0 0 [1]
    (by decide) ?_ ?_ (by simp) hrun).1
  · intro tr htr tbl htbl
    simp only [List.mem_singleton] at htr
    subst htr
    simp only [List.mem_singleton] at htbl
    subst htbl
    norm_num
  · intro fm h
    cases h

/-! ## C9: n_thresholds = 1 is not rejected -/

/-- C9: the claim says a configuration with n_thresholds = 1 is rejected
at configuration time; but the property registered for `n_thresholds` has
min = 1 (glimpse_rdt.cc:592), so the value 1 is accepted, and the
threshold spacing formula then divides by `n_thresholds − 1 = 0`
(glimpse_rdt.cc:855, a NaN in the float arithmetic). -/
theorem c9_n_thresholds_one_accepted :
    nThresholdsAccepted 1 = true ∧ thresholdDivisor 1 = 0 := by
  constructor
  · decide
  · norm_num [thresholdDivisor]

end Glimpse
